import Mathlib

/-
Verification of the state-space search framework in puzzle_tools.py
(depth_first_solve, breadth_first_search, breadth_first_solve,
dfs_path_maker, PuzzleNode) together with the word-ladder puzzle
variant (word_ladder_puzzle.py).

Modelling conventions.
A puzzle variant is a structure of the three capabilities the engines
consume: is_solved, extensions and the canonical string form (the
Python str of a puzzle).  The Python PuzzleNode carries a puzzle, a
mutable children list and a parent back-reference; during search the
engines only ever set the parent pointer, so a node reached by the
search is represented by the pair of its state and the list of its
ancestor states (nearest first) - exactly the information of the
parent chain.  The search loops are fuel-indexed; a result of none
means the fuel ran out, some none is the no-solution signal (Python
None) and some p is a found path, listed root first.  Each loop also
returns the trace of states on which it called extensions, in call
order, so that expansion-order and dedup properties can be stated.
-/

universe u

/-- Capability contract of a puzzle state type, as consumed by the
engines: solved-check, successor enumeration and canonical string
form. -/
structure Puzzle (σ : Type u) where
  is_solved : σ → Bool
  extensions : σ → List σ
  str : σ → String

/-- Node of the search tree: a puzzle (possibly None), an ordered
children list and an optional parent back-reference, mirroring the
PuzzleNode class. -/
inductive PuzzleNode (σ : Type u) where
  | mk (puzzle : Option σ) (children : List (PuzzleNode σ)) (parent : Option (PuzzleNode σ))

mutual

/-- Structural equality of PuzzleNode, mirroring PuzzleNode.__eq__:
same type, equal puzzles, and each children list elementwise contained
in the other (parent ignored). -/
def pnodeEq [BEq σ] : PuzzleNode σ → PuzzleNode σ → Bool
  | .mk p1 c1 _, .mk p2 c2 _ =>
      p1 == p2 && allIn c2 c1 && allIn c1 c2
termination_by a b => sizeOf a + sizeOf b

/-- Containment all x in first, x is a member of second, mirroring the
all-comprehensions in PuzzleNode.__eq__. -/
def allIn [BEq σ] : List (PuzzleNode σ) → List (PuzzleNode σ) → Bool
  | [], _ => true
  | x :: xs, ys => isIn x ys && allIn xs ys
termination_by xs ys => sizeOf xs + sizeOf ys

/-- Membership by node equality, mirroring the Python in operator over
a children list. -/
def isIn [BEq σ] : PuzzleNode σ → List (PuzzleNode σ) → Bool
  | _, [] => false
  | x, y :: ys => pnodeEq y x || isIn x ys
termination_by x ys => sizeOf x + sizeOf ys

end

/-- Build the chain tree described by a root-first path: each state
becomes a node whose children list holds exactly the next node, the
last state a childless leaf.  This is the tree shape produced by path
reconstruction (dfs_path_maker and the rewiring loop of
breadth_first_search). -/
def chainOf (s : σ) : List σ → PuzzleNode σ
  | [] => .mk (some s) [] none
  | t :: rest => .mk (some s) [chainOf t rest] none

/-- A tree is a simple solution chain when every node has exactly one
child except the leaf, which has none and is solved. -/
def isSimpleChain (P : Puzzle σ) : PuzzleNode σ → Bool
  | .mk (some s) [] _ => P.is_solved s
  | .mk _ [c] _ => isSimpleChain P c
  | _ => false

/-- A search entry: the state of a node together with the states of
its ancestors, nearest first - the parent chain of the PuzzleNode the
engine would have allocated. -/
abbrev SearchEntry (σ : Type u) := σ × List σ

/-- Walk up the parent chain from the solving node and return the
root-first path, mirroring dfs_path_maker, which appends each node to
its parent s children while walking up and returns the root. -/
def dfs_path_maker (e : SearchEntry σ) : List σ :=
  (e.1 :: e.2).reverse

/-- Main loop of depth_first_solve.  The Python code pops the left end
of its deque, skips already visited canonical forms, marks, returns
the reconstructed path if solved, and otherwise pushes each extension
on the left (so the work list is LIFO).  The Lean list models the
deque with its head at the left end; the fold reproduces the
successive appendleft calls.  Also accumulates the expansion trace. -/
def dfs_loopT (P : Puzzle σ) : Nat → List String → List (SearchEntry σ) →
    Option (List σ × Option (List σ))
  | 0, _, _ => none
  | _ + 1, _, [] => some ([], none)
  | fuel + 1, visited, (s, anc) :: stack =>
    if P.str s ∈ visited then
      dfs_loopT P fuel visited stack
    else
      let visited2 := P.str s :: visited
      if P.is_solved s then
        some ([], some (dfs_path_maker (s, anc)))
      else
        (dfs_loopT P fuel visited2
            ((P.extensions s).foldl (fun st p => (p, s :: anc) :: st) stack)).map
          (fun r => (s :: r.1, r.2))

/-- depth_first_solve with its expansion trace.  If the initial state
is solved a single fresh node is returned at once; otherwise the
visited set is seeded with the canonical form of the initial state and
the stack with one node per extension of it (appended to the right, in
extensions order), and the loop runs. -/
def depth_first_solveT (P : Puzzle σ) (fuel : Nat) (puzzle : σ) :
    Option (List σ × Option (List σ)) :=
  if P.is_solved puzzle then some ([], some [puzzle])
  else
    (dfs_loopT P fuel [P.str puzzle]
        ((P.extensions puzzle).map (fun p => (p, [puzzle])))).map
      (fun r => (puzzle :: r.1, r.2))

/-- Result of depth_first_solve: the found root-first path, the
no-solution signal, or fuel exhaustion (outer none). -/
def depth_first_solve (P : Puzzle σ) (fuel : Nat) (puzzle : σ) :
    Option (Option (List σ)) :=
  (depth_first_solveT P fuel puzzle).map Prod.snd

/-- Main loop of breadth_first_search.  The Python code dequeues the
oldest node, adds its canonical form to the visited set, enqueues a
child for every extension whose canonical form is not visited, and
only then checks whether the dequeued state is solved, returning the
rewired path if so.  Note there is no visited check on dequeue. -/
def bfs_loopT (P : Puzzle σ) : Nat → List String → List (SearchEntry σ) →
    Option (List σ × Option (List σ))
  | 0, _, _ => none
  | _ + 1, _, [] => some ([], none)
  | fuel + 1, visited, (s, anc) :: que =>
    let visited2 := P.str s :: visited
    let newEntries :=
      ((P.extensions s).filter (fun e => decide (P.str e ∉ visited2))).map
        (fun e => (e, s :: anc))
    if P.is_solved s then
      some ([s], some ((s :: anc).reverse))
    else
      (bfs_loopT P fuel visited2 (que ++ newEntries)).map
        (fun r => (s :: r.1, r.2))

/-- breadth_first_search with its expansion trace: the queue is seeded
with a single parentless node wrapping the initial state and the
visited set starts empty. -/
def breadth_first_search (P : Puzzle σ) (fuel : Nat) (parent : σ) :
    Option (List σ × Option (List σ)) :=
  bfs_loopT P fuel [] [(parent, [])]

/-- breadth_first_solve wraps the initial state in a node, runs
breadth_first_search, and converts the absent path into the
no-solution signal. -/
def breadth_first_solve (P : Puzzle σ) (fuel : Nat) (puzzle : σ) :
    Option (Option (List σ)) :=
  (breadth_first_search P fuel puzzle).map Prod.snd

/-- State of a word-ladder puzzle: current word, target word and the
word set (the set is rendered as a list; it is passed unchanged to
every extension, as in the Python code). -/
structure WLState where
  from_word : List Char
  to_word : List Char
  word_set : List (List Char)
deriving DecidableEq

/-- Characters usable for one-letter changes, mirroring the _chars
attribute. -/
def wl_chars : List Char :=
  "abcdefghijklmnopqrstuvwxyz".toList

/-- Extensions of a word-ladder state: for every position and every
letter, the word with that letter substituted, kept when it lies in
the word set and differs from the current word. -/
def wl_extensions (st : WLState) : List WLState :=
  (List.range st.from_word.length).flatMap (fun i =>
    wl_chars.filterMap (fun letter =>
      let word := st.from_word.take i ++ [letter] ++ st.from_word.drop (i + 1)
      if word ∈ st.word_set ∧ word ≠ st.from_word then
        some ⟨word, st.to_word, st.word_set⟩
      else none))

/-- Canonical string form of a word-ladder state, mirroring
WordLadderPuzzle.__str__. -/
def wl_str (st : WLState) : String :=
  String.mk st.from_word ++ " -> " ++ String.mk st.to_word

/-- The word-ladder puzzle variant packaged as a capability record. -/
def wordLadderPuzzle : Puzzle WLState :=
  ⟨fun st => decide (st.from_word = st.to_word), wl_extensions, wl_str⟩

/-- Diamond-shaped successor graph on four states with no solved
state: state 3 is reachable from both 1 and 2. -/
def diamondPuzzle : Puzzle Nat :=
  ⟨fun _ => false,
   fun n => if n = 0 then [1, 2] else if n = 1 then [3] else if n = 2 then [3] else [],
   fun n => toString n⟩

/-- Puzzle whose state 1 has the two solved extensions 2 and 3, and
whose deeper graph 2 -> 4, 3 -> 5 allows observing sibling visit
order. -/
def siblingPuzzle : Puzzle Nat :=
  ⟨fun n => decide (n = 2 ∨ n = 3),
   fun n => if n = 0 then [1] else if n = 1 then [2, 3] else [],
   fun n => toString n⟩

/-- Unsolvable sibling graph: 0 -> [1], 1 -> [2, 3], 2 -> [4],
3 -> [5], nothing solved, used to observe the full expansion order. -/
def siblingDeepPuzzle : Puzzle Nat :=
  ⟨fun _ => false,
   fun n => if n = 0 then [1] else if n = 1 then [2, 3]
     else if n = 2 then [4] else if n = 3 then [5] else [],
   fun n => toString n⟩

/-- Two-state line: false steps to true, true is solved. -/
def linePuzzle : Puzzle Bool :=
  ⟨fun b => b, fun b => if b then [] else [true], fun b => if b then "T" else "F"⟩

/-- A stuck puzzle: never solved, no extensions. -/
def stuckPuzzle : Puzzle Bool :=
  ⟨fun _ => false, fun _ => [], fun b => if b then "T" else "F"⟩

/-- Claim C4: for every puzzle whose initial state is already solved,
both depth_first_solve and breadth_first_solve return a single-node
path containing only that state, whose tree form is a root with no
children. -/
theorem claim_C4_solved_initial_single_node (P : Puzzle σ) (s : σ) (fuel : Nat)
    (h : P.is_solved s = true) :
    depth_first_solve P fuel s = some (some [s]) ∧
    breadth_first_solve P (fuel + 1) s = some (some [s]) ∧
    chainOf s ([] : List σ) = PuzzleNode.mk (some s) [] none := by
  refine ⟨?_, ?_, rfl⟩
  · simp [depth_first_solve, depth_first_solveT, h]
  · simp [breadth_first_solve, breadth_first_search, bfs_loopT, h]

/-- Witness for claim C4 at the solved state of the two-state line
puzzle. -/
theorem claim_C4_witness :
    depth_first_solve linePuzzle 0 true = some (some [true]) ∧
    breadth_first_solve linePuzzle 1 true = some (some [true]) ∧
    chainOf true ([] : List Bool) = PuzzleNode.mk (some true) [] none :=
  claim_C4_solved_initial_single_node linePuzzle true 0 (by decide)

/-- Claim C7: a puzzle whose initial state is not solved and has no
extensions makes both engines return the explicit no-solution signal,
and more generally each engine loop returns that signal whenever its
work list is exhausted. -/
theorem claim_C7_no_solution_signal (P : Puzzle σ) (s : σ) (fuel : Nat)
    (visited : List String)
    (hns : P.is_solved s = false) (hext : P.extensions s = []) :
    depth_first_solve P (fuel + 1) s = some none ∧
    breadth_first_solve P (fuel + 2) s = some none ∧
    dfs_loopT P (fuel + 1) visited ([] : List (SearchEntry σ)) = some ([], none) ∧
    bfs_loopT P (fuel + 1) visited ([] : List (SearchEntry σ)) = some ([], none) := by
  refine ⟨?_, ?_, rfl, rfl⟩
  · simp [depth_first_solve, depth_first_solveT, dfs_loopT, hns, hext]
  · simp [breadth_first_solve, breadth_first_search, bfs_loopT, hns, hext]

/-- Witness for claim C7 at the stuck puzzle. -/
theorem claim_C7_witness :
    depth_first_solve stuckPuzzle 1 false = some none ∧
    breadth_first_solve stuckPuzzle 2 false = some none ∧
    dfs_loopT stuckPuzzle 1 ["F"] ([] : List (SearchEntry Bool)) = some ([], none) ∧
    bfs_loopT stuckPuzzle 1 ["F"] ([] : List (SearchEntry Bool)) = some ([], none) :=
  claim_C7_no_solution_signal stuckPuzzle false 0 ["F"] (by decide) (by decide)

/-- Claim C9: both engines are deterministic; two runs on the same
initial state with pointwise identical capabilities (same solved
check, same extensions output and ordering, same canonical form)
return identical results. -/
theorem claim_C9_deterministic (P Q : Puzzle σ) (fuel : Nat) (s : σ)
    (hs : ∀ x, P.is_solved x = Q.is_solved x)
    (he : ∀ x, P.extensions x = Q.extensions x)
    (hstr : ∀ x, P.str x = Q.str x) :
    depth_first_solve P fuel s = depth_first_solve Q fuel s ∧
    breadth_first_solve P fuel s = breadth_first_solve Q fuel s := by
  obtain ⟨a, b, c⟩ := P
  obtain ⟨d, e, f⟩ := Q
  have h1 : a = d := funext hs
  have h2 : b = e := funext he
  have h3 : c = f := funext hstr
  subst h1; subst h2; subst h3
  exact ⟨rfl, rfl⟩

/-- Witness for claim C9: two syntactically distinct but pointwise
equal copies of the line puzzle give identical engine results. -/
theorem claim_C9_witness :
    depth_first_solve linePuzzle 2 false =
      depth_first_solve ⟨fun b => b && true, fun b => if b then [] else [true],
        fun b => if b then "T" else "F"⟩ 2 false ∧
    breadth_first_solve linePuzzle 2 false =
      breadth_first_solve ⟨fun b => b && true, fun b => if b then [] else [true],
        fun b => if b then "T" else "F"⟩ 2 false :=
  claim_C9_deterministic linePuzzle _ 2 false (by decide) (fun x => rfl) (fun x => rfl)

/-- Counterexample to claim C6: on the word-ladder puzzle with
from_word and to_word both the single word a, breadth_first_search
still calls extensions once, on the initial state, before the solved
check fires - its expansion trace is the one-element list of the
initial state, not the empty list the claim requires. -/
theorem claim_C6_counterexample :
    (breadth_first_search wordLadderPuzzle 1 ⟨['a'], ['a'], []⟩).map Prod.fst =
      some [⟨['a'], ['a'], []⟩] ∧
    (some [(⟨['a'], ['a'], []⟩ : WLState)] ≠ some ([] : List WLState)) := by
  exact ⟨by decide, by decide⟩

/-- Claim C6 as amended: for every word-ladder puzzle whose from_word
equals its to_word, both engines return the one-state path at once;
depth_first_solve calls extensions on no state, while
breadth_first_search calls extensions exactly once, on the initial
state, before its solved check. -/
theorem claim_C6_amended_trivial_ladder (w : List Char) (ws : List (List Char)) (fuel : Nat) :
    depth_first_solveT wordLadderPuzzle fuel ⟨w, w, ws⟩ = some ([], some [⟨w, w, ws⟩]) ∧
    breadth_first_search wordLadderPuzzle (fuel + 1) ⟨w, w, ws⟩ =
      some ([⟨w, w, ws⟩], some [⟨w, w, ws⟩]) ∧
    breadth_first_solve wordLadderPuzzle (fuel + 1) ⟨w, w, ws⟩ = some (some [⟨w, w, ws⟩]) := by
  refine ⟨?_, ?_, ?_⟩
  · simp [depth_first_solveT, wordLadderPuzzle]
  · simp [breadth_first_search, bfs_loopT, wordLadderPuzzle]
  · simp [breadth_first_solve, breadth_first_search, bfs_loopT, wordLadderPuzzle]

/-- Unfolding of allIn into universally quantified membership. -/
theorem allIn_iff [BEq σ] (xs ys : List (PuzzleNode σ)) :
    allIn xs ys = true ↔ ∀ x ∈ xs, isIn x ys = true := by
  induction xs with
  | nil => simp [allIn]
  | cons x xs ih => simp [allIn, ih]

/-- Unfolding of isIn into existentially quantified node equality. -/
theorem isIn_iff [BEq σ] (x : PuzzleNode σ) (ys : List (PuzzleNode σ)) :
    isIn x ys = true ↔ ∃ y ∈ ys, pnodeEq y x = true := by
  induction ys with
  | nil => simp [isIn]
  | cons y ys ih => simp [isIn, ih]

/-- Node equality is reflexive (by strong induction on the size of the
node). -/
theorem pnodeEq_refl [BEq σ] [LawfulBEq σ] (n : PuzzleNode σ) : pnodeEq n n = true := by
  suffices h : ∀ (k : Nat) (n : PuzzleNode σ), sizeOf n ≤ k → pnodeEq n n = true from
    h (sizeOf n) n le_rfl
  intro k
  induction k with
  | zero =>
    intro n hn
    obtain ⟨p, c, par⟩ := n
    simp [PuzzleNode.mk.sizeOf_spec] at hn
  | succ k ih =>
    intro n hn
    obtain ⟨p, c, par⟩ := n
    simp only [pnodeEq, Bool.and_eq_true, beq_self_eq_true, true_and]
    have hc : allIn c c = true := by
      rw [allIn_iff]
      intro x hx
      rw [isIn_iff]
      refine ⟨x, hx, ih x ?_⟩
      have h1 : sizeOf x < sizeOf c := List.sizeOf_lt_of_mem hx
      have h2 : sizeOf (PuzzleNode.mk p c par) = 1 + sizeOf p + sizeOf c + sizeOf par := by
        simp [PuzzleNode.mk.sizeOf_spec]
      omega
    exact ⟨hc, hc⟩

/-- Claim C10: PuzzleNode equality ignores the parent field and the
order and multiplicity of children; two nodes compare equal iff their
puzzles are equal and each children list is elementwise contained in
the other, and in particular two nodes with equal puzzles, equal
children and different parents are equal. -/
theorem claim_C10_pnode_eq_spec [BEq σ] [LawfulBEq σ] :
    (∀ (p1 p2 : Option σ) (c1 c2 : List (PuzzleNode σ))
        (par1 par2 : Option (PuzzleNode σ)),
      pnodeEq (PuzzleNode.mk p1 c1 par1) (PuzzleNode.mk p2 c2 par2) = true ↔
        (p1 = p2 ∧ (∀ x ∈ c2, ∃ y ∈ c1, pnodeEq y x = true) ∧
          (∀ x ∈ c1, ∃ y ∈ c2, pnodeEq y x = true))) ∧
    (∀ (p : Option σ) (c : List (PuzzleNode σ)) (par1 par2 : Option (PuzzleNode σ)),
      pnodeEq (PuzzleNode.mk p c par1) (PuzzleNode.mk p c par2) = true) := by
  have hiff : ∀ (p1 p2 : Option σ) (c1 c2 : List (PuzzleNode σ))
      (par1 par2 : Option (PuzzleNode σ)),
      pnodeEq (PuzzleNode.mk p1 c1 par1) (PuzzleNode.mk p2 c2 par2) = true ↔
        (p1 = p2 ∧ (∀ x ∈ c2, ∃ y ∈ c1, pnodeEq y x = true) ∧
          (∀ x ∈ c1, ∃ y ∈ c2, pnodeEq y x = true)) := by
    intro p1 p2 c1 c2 par1 par2
    simp only [pnodeEq, Bool.and_eq_true, beq_iff_eq, allIn_iff, isIn_iff]
    tauto
  refine ⟨hiff, ?_⟩
  intro p c par1 par2
  rw [hiff]
  exact ⟨rfl, fun x hx => ⟨x, hx, pnodeEq_refl x⟩, fun x hx => ⟨x, hx, pnodeEq_refl x⟩⟩

/-- Witness for claim C10: two nodes with the same puzzle and children
but different parents compare equal. -/
theorem claim_C10_witness :
    pnodeEq
      (PuzzleNode.mk (some 1) ([] : List (PuzzleNode Nat))
        (some (PuzzleNode.mk none [] none)))
      (PuzzleNode.mk (some 1) [] none) = true :=
  (@claim_C10_pnode_eq_spec Nat _ _).2 (some 1) []
    (some (PuzzleNode.mk none [] none)) none

/-- Folding cons over a list, as the successive appendleft calls of
the depth-first loop do, prepends the mapped list in reverse order. -/
theorem foldl_cons_rev (f : α → β) : ∀ (l : List α) (st : List β),
    l.foldl (fun acc p => f p :: acc) st = (l.map f).reverse ++ st := by
  intro l
  induction l with
  | nil => intro st; simp
  | cons a l ih => intro st; simp [ih]

/-- The depth-first loop with no fuel gives up. -/
theorem dfs_loopT_zero (P : Puzzle σ) (visited : List String)
    (stack : List (SearchEntry σ)) : dfs_loopT P 0 visited stack = none := rfl

/-- The depth-first loop on an exhausted work list returns the
no-solution signal. -/
theorem dfs_loopT_nil (P : Puzzle σ) (fuel : Nat) (visited : List String) :
    dfs_loopT P (fuel + 1) visited ([] : List (SearchEntry σ)) = some ([], none) := rfl

/-- A popped node whose canonical form is already visited is skipped. -/
theorem dfs_loopT_visited (P : Puzzle σ) (fuel : Nat) (visited : List String)
    (s : σ) (anc : List σ) (stack : List (SearchEntry σ))
    (hv : P.str s ∈ visited) :
    dfs_loopT P (fuel + 1) visited ((s, anc) :: stack) =
      dfs_loopT P fuel visited stack := by
  simp [dfs_loopT, hv]

/-- A popped unvisited solved node stops the depth-first loop with the
reconstructed path. -/
theorem dfs_loopT_solved (P : Puzzle σ) (fuel : Nat) (visited : List String)
    (s : σ) (anc : List σ) (stack : List (SearchEntry σ))
    (hv : P.str s ∉ visited) (hs : P.is_solved s = true) :
    dfs_loopT P (fuel + 1) visited ((s, anc) :: stack) =
      some ([], some (dfs_path_maker (s, anc))) := by
  simp [dfs_loopT, hv, hs]

/-- Expanding a popped unvisited unsolved node marks it visited and
pushes its successors ahead of all previously queued work, in the
reverse of extensions order (the Python loop appendlefts them one by
one). -/
theorem dfs_loopT_expand (P : Puzzle σ) (fuel : Nat) (visited : List String)
    (s : σ) (anc : List σ) (stack : List (SearchEntry σ))
    (hv : P.str s ∉ visited) (hs : P.is_solved s = false) :
    dfs_loopT P (fuel + 1) visited ((s, anc) :: stack) =
      (dfs_loopT P fuel (P.str s :: visited)
          (((P.extensions s).map (fun p => (p, s :: anc))).reverse ++ stack)).map
        (fun r => (s :: r.1, r.2)) := by
  simp [dfs_loopT, hv, hs, foldl_cons_rev (fun p => (p, s :: anc)) (P.extensions s) stack]

/-- The breadth-first loop with no fuel gives up. -/
theorem bfs_loopT_zero (P : Puzzle σ) (visited : List String)
    (que : List (SearchEntry σ)) : bfs_loopT P 0 visited que = none := rfl

/-- The breadth-first loop on an exhausted work list returns the
no-solution signal. -/
theorem bfs_loopT_nil (P : Puzzle σ) (fuel : Nat) (visited : List String) :
    bfs_loopT P (fuel + 1) visited ([] : List (SearchEntry σ)) = some ([], none) := rfl

/-- A dequeued solved node stops the breadth-first loop with the
rewired path; its extensions were still computed first. -/
theorem bfs_loopT_solved (P : Puzzle σ) (fuel : Nat) (visited : List String)
    (s : σ) (anc : List σ) (que : List (SearchEntry σ))
    (hs : P.is_solved s = true) :
    bfs_loopT P (fuel + 1) visited ((s, anc) :: que) =
      some ([s], some ((s :: anc).reverse)) := by
  simp [bfs_loopT, hs]

/-- Dequeuing an unsolved node marks it visited and appends a child
entry for each extension not yet visited, behind the pending queue. -/
theorem bfs_loopT_expand (P : Puzzle σ) (fuel : Nat) (visited : List String)
    (s : σ) (anc : List σ) (que : List (SearchEntry σ))
    (hs : P.is_solved s = false) :
    bfs_loopT P (fuel + 1) visited ((s, anc) :: que) =
      (bfs_loopT P fuel (P.str s :: visited)
          (que ++ ((P.extensions s).filter
              (fun e => decide (P.str e ∉ P.str s :: visited))).map
            (fun e => (e, s :: anc)))).map
        (fun r => (s :: r.1, r.2)) := by
  simp [bfs_loopT, hs]

/-- The depth-first loop never expands two states with the same
canonical form: its expansion trace has pairwise distinct canonical
forms, none of them already visited. -/
theorem dfs_loopT_trace_nodup (P : Puzzle σ) : ∀ (fuel : Nat) (visited : List String)
    (stack : List (SearchEntry σ)) (tr : List σ) (res : Option (List σ)),
    dfs_loopT P fuel visited stack = some (tr, res) →
    (tr.map P.str).Nodup ∧ ∀ x ∈ tr, P.str x ∉ visited := by
  intro fuel
  induction fuel with
  | zero =>
    intro visited stack tr res h
    rw [dfs_loopT_zero] at h
    exact absurd h (by simp)
  | succ fuel ih =>
    intro visited stack tr res h
    match stack with
    | [] =>
      rw [dfs_loopT_nil] at h
      obtain ⟨h1, h2⟩ := Prod.mk.injEq .. ▸ (Option.some.injEq .. ▸ h)
      subst h1
      simp
    | (s, anc) :: stack =>
      by_cases hv : P.str s ∈ visited
      · rw [dfs_loopT_visited P fuel visited s anc stack hv] at h
        exact ih visited stack tr res h
      · cases hsol : P.is_solved s with
        | true =>
          rw [dfs_loopT_solved P fuel visited s anc stack hv hsol] at h
          obtain ⟨h1, h2⟩ := Prod.mk.injEq .. ▸ (Option.some.injEq .. ▸ h)
          subst h1
          simp
        | false =>
          rw [dfs_loopT_expand P fuel visited s anc stack hv hsol] at h
          rw [Option.map_eq_some'] at h
          obtain ⟨⟨tr', res'⟩, hrec, heq⟩ := h
          obtain ⟨h1, h2⟩ := Prod.mk.injEq .. ▸ heq
          subst h1
          obtain ⟨hnd, hvis⟩ := ih _ _ _ _ hrec
          constructor
          · simp only [List.map_cons, List.nodup_cons]
            refine ⟨?_, hnd⟩
            intro hmem
            obtain ⟨x, hx, hxs⟩ := List.mem_map.mp hmem
            exact (hvis x hx) (hxs ▸ List.mem_cons_self _ _)
          · intro x hx
            rcases List.mem_cons.mp hx with hxe | hxt
            · exact hxe ▸ hv
            · intro hc
              exact (hvis x hxt) (List.mem_cons_of_mem _ hc)

/-- Counterexample to claim C3: on the diamond graph 0 to 1 and 2,
each to 3, breadth_first_search expands state 3 twice (it is enqueued
by both parents before its first dequeue, and there is no visited
check at dequeue time), so the canonical form 3 appears twice among
the expanded states. -/
theorem claim_C3_counterexample :
    (breadth_first_search diamondPuzzle 10 0).map Prod.fst = some [0, 1, 2, 3, 3] ∧
    ¬ (([(0 : Nat), 1, 2, 3, 3].map diamondPuzzle.str).Nodup) := by
  exact ⟨by decide, by decide⟩

/-- Claim C3 as amended: in every run of depth_first_solve no state s
canonical form appears twice among the expanded states; the same does
not hold of breadth_first_search, which may expand a state once per
time it was enqueued. -/
theorem claim_C3_amended_dfs_dedup (P : Puzzle σ) (fuel : Nat) (s : σ)
    (tr : List σ) (res : Option (List σ))
    (h : depth_first_solveT P fuel s = some (tr, res)) :
    (tr.map P.str).Nodup := by
  rw [depth_first_solveT] at h
  by_cases hsol : P.is_solved s
  · rw [if_pos hsol] at h
    obtain ⟨h1, h2⟩ := Prod.mk.injEq .. ▸ (Option.some.injEq .. ▸ h)
    subst h1
    simp
  · rw [if_neg hsol, Option.map_eq_some'] at h
    obtain ⟨⟨tr', res'⟩, hrec, heq⟩ := h
    obtain ⟨h1, h2⟩ := Prod.mk.injEq .. ▸ heq
    subst h1
    obtain ⟨hnd, hvis⟩ := dfs_loopT_trace_nodup P fuel _ _ _ _ hrec
    simp only [List.map_cons, List.nodup_cons]
    refine ⟨?_, hnd⟩
    intro hmem
    obtain ⟨x, hx, hxs⟩ := List.mem_map.mp hmem
    exact (hvis x hx) (hxs ▸ List.mem_cons_self _ _)

/-- Witness for the amended claim C3 on a full depth-first run over
the sibling graph, whose expansion trace is 0, 1, 3, 5, 2, 4. -/
theorem claim_C3_witness :
    (([(0 : Nat), 1, 3, 5, 2, 4].map siblingDeepPuzzle.str).Nodup) :=
  claim_C3_amended_dfs_dedup siblingDeepPuzzle 10 0 [0, 1, 3, 5, 2, 4] none (by decide)

/-- Counterexample to claim C5: expanding state 1 of the sibling
puzzle, whose extensions come in the order 2, 3 with both solved,
depth_first_solve returns the path through 3, not through 2, because
the inner loop appendlefts successors one by one and so visits them in
the reverse of extensions order; likewise on the unsolvable deep
sibling graph the expansion trace visits 3 and its subtree before 2. -/
theorem claim_C5_counterexample :
    depth_first_solve siblingPuzzle 10 0 = some (some [0, 1, 3]) ∧
    siblingPuzzle.extensions 1 = [2, 3] ∧
    siblingPuzzle.is_solved 2 = true ∧
    siblingPuzzle.is_solved 3 = true ∧
    (depth_first_solveT siblingDeepPuzzle 10 0).map Prod.fst =
      some [0, 1, 3, 5, 2, 4] ∧
    siblingDeepPuzzle.extensions 1 = [2, 3] := by
  refine ⟨by decide, by decide, by decide, by decide, by decide, by decide⟩

/-- Claim C5 as amended: successors of the just-expanded node are
pushed ahead of all previously queued work (LIFO depth-first order),
but among the siblings generated by one expansion inside the main loop
the child visited first is the one extensions() returned last - the
pushed block is the reverse of the mapped extensions list, so the last
extension ends up on top of the stack.  Only the seed children of the
initial state are visited in extensions() order. -/
theorem claim_C5_amended_reversed_siblings (P : Puzzle σ) (fuel : Nat)
    (visited : List String) (s : σ) (anc : List σ) (stack : List (SearchEntry σ))
    (hv : P.str s ∉ visited) (hs : P.is_solved s = false) :
    dfs_loopT P (fuel + 1) visited ((s, anc) :: stack) =
      (dfs_loopT P fuel (P.str s :: visited)
          (((P.extensions s).map (fun p => (p, s :: anc))).reverse ++ stack)).map
        (fun r => (s :: r.1, r.2)) ∧
    ∀ (e : σ) (es : List σ), P.extensions s = es ++ [e] →
      ((P.extensions s).map (fun p => (p, s :: anc))).reverse ++ stack =
        (e, s :: anc) :: ((es.map (fun p => (p, s :: anc))).reverse ++ stack) := by
  constructor
  · exact dfs_loopT_expand P fuel visited s anc stack hv hs
  · intro e es hsplit
    rw [hsplit]
    simp

/-- Witness for the amended claim C5, expanding state 1 of the deep
sibling graph: the successor block pushed for extensions 2, 3 starts
with the entry for 3. -/
theorem claim_C5_witness :
    dfs_loopT siblingDeepPuzzle 5 ["0"] [((1 : Nat), [0])] =
      (dfs_loopT siblingDeepPuzzle 4 (siblingDeepPuzzle.str 1 :: ["0"])
          (((siblingDeepPuzzle.extensions 1).map (fun p => (p, 1 :: [0]))).reverse ++ [])).map
        (fun r => ((1 : Nat) :: r.1, r.2)) ∧
    ∀ (e : Nat) (es : List Nat), siblingDeepPuzzle.extensions 1 = es ++ [e] →
      ((siblingDeepPuzzle.extensions 1).map (fun p => (p, 1 :: [0]))).reverse ++ [] =
        (e, 1 :: [0]) :: ((es.map (fun p => (p, 1 :: [0]))).reverse ++ []) :=
  claim_C5_amended_reversed_siblings siblingDeepPuzzle 4 ["0"] 1 [0] [] (by decide) (by decide)

/-- A search entry is good when the root-first path it encodes starts
at the initial state and each consecutive pair of states on it is
related by one application of extensions. -/
def GoodEntry (P : Puzzle σ) (s0 : σ) (e : SearchEntry σ) : Prop :=
  ((e.1 :: e.2).reverse).head? = some s0 ∧
  List.Chain' (fun a b => b ∈ P.extensions a) ((e.1 :: e.2).reverse)

/-- Extending a good entry by one of its extensions yields a good
entry. -/
theorem goodEntry_child (P : Puzzle σ) (s0 : σ) (s : σ) (anc : List σ) (p : σ)
    (h : GoodEntry P s0 (s, anc)) (hp : p ∈ P.extensions s) :
    GoodEntry P s0 (p, s :: anc) := by
  obtain ⟨hhead, hchain⟩ := h
  have hrw : ((p, s :: anc).1 :: (p, s :: anc).2).reverse =
      ((s, anc).1 :: (s, anc).2).reverse ++ [p] := by simp
  constructor
  · rw [hrw, List.head?_append, hhead]
    rfl
  · rw [hrw, List.chain'_append]
    refine ⟨hchain, List.chain'_singleton p, ?_⟩
    intro x hx y hy
    rw [List.getLast?_reverse] at hx
    simp only [List.head?_cons, Option.mem_def, Option.some.injEq] at hx hy
    subst hx; subst hy
    exact hp

/-- The path encoded by a good entry starts at the initial state, is
chained by extensions, and ends at the entry s own state. -/
theorem goodEntry_path (P : Puzzle σ) (s0 : σ) (s : σ) (anc : List σ)
    (h : GoodEntry P s0 (s, anc)) :
    ((s :: anc).reverse).head? = some s0 ∧
    List.Chain' (fun a b => b ∈ P.extensions a) ((s :: anc).reverse) ∧
    ((s :: anc).reverse).getLast? = some s := by
  exact ⟨h.1, h.2, by rw [List.getLast?_reverse]; rfl⟩

/-- Soundness of the depth-first loop: a returned path starts at the
initial state, follows extensions step by step and ends solved,
provided every entry on the stack encodes a genuine path from the
initial state. -/
theorem dfs_loopT_sound (P : Puzzle σ) (s0 : σ) : ∀ (fuel : Nat)
    (visited : List String) (stack : List (SearchEntry σ)) (tr : List σ)
    (path : List σ),
    (∀ e ∈ stack, GoodEntry P s0 e) →
    dfs_loopT P fuel visited stack = some (tr, some path) →
    path.head? = some s0 ∧
    List.Chain' (fun a b => b ∈ P.extensions a) path ∧
    ∃ t, path.getLast? = some t ∧ P.is_solved t = true := by
  intro fuel
  induction fuel with
  | zero =>
    intro visited stack tr path hg h
    rw [dfs_loopT_zero] at h
    exact absurd h (by simp)
  | succ fuel ih =>
    intro visited stack tr path hg h
    match stack with
    | [] =>
      rw [dfs_loopT_nil] at h
      obtain ⟨h1, h2⟩ := Prod.mk.injEq .. ▸ (Option.some.injEq .. ▸ h)
      exact absurd h2 (by simp)
    | (s, anc) :: stack =>
      by_cases hv : P.str s ∈ visited
      · rw [dfs_loopT_visited P fuel visited s anc stack hv] at h
        exact ih visited stack tr path (fun e he => hg e (List.mem_cons_of_mem _ he)) h
      · cases hsol : P.is_solved s with
        | true =>
          rw [dfs_loopT_solved P fuel visited s anc stack hv hsol] at h
          have h2 := congrArg Prod.snd (Option.some.inj h)
          have hpath : path = (s :: anc).reverse := (Option.some.inj h2).symm
          subst hpath
          obtain ⟨hh, hc, hl⟩ := goodEntry_path P s0 s anc (hg _ (List.mem_cons_self _ _))
          exact ⟨hh, hc, s, hl, hsol⟩
        | false =>
          rw [dfs_loopT_expand P fuel visited s anc stack hv hsol] at h
          rw [Option.map_eq_some'] at h
          obtain ⟨⟨tr', res'⟩, hrec, heq⟩ := h
          have h2 : res' = some path := congrArg Prod.snd heq
          refine ih _ _ _ _ ?_ (h2 ▸ hrec)
          intro e he
          rcases List.mem_append.mp he with hnew | hold
          · rw [List.mem_reverse] at hnew
            obtain ⟨p, hp, hpe⟩ := List.mem_map.mp hnew
            exact hpe ▸ goodEntry_child P s0 s anc p (hg _ (List.mem_cons_self _ _)) hp
          · exact hg e (List.mem_cons_of_mem _ hold)

/-- Soundness of the breadth-first loop: a returned path starts at the
initial state, follows extensions step by step and ends solved,
provided every entry in the queue encodes a genuine path from the
initial state. -/
theorem bfs_loopT_sound (P : Puzzle σ) (s0 : σ) : ∀ (fuel : Nat)
    (visited : List String) (que : List (SearchEntry σ)) (tr : List σ)
    (path : List σ),
    (∀ e ∈ que, GoodEntry P s0 e) →
    bfs_loopT P fuel visited que = some (tr, some path) →
    path.head? = some s0 ∧
    List.Chain' (fun a b => b ∈ P.extensions a) path ∧
    ∃ t, path.getLast? = some t ∧ P.is_solved t = true := by
  intro fuel
  induction fuel with
  | zero =>
    intro visited que tr path hg h
    rw [bfs_loopT_zero] at h
    exact absurd h (by simp)
  | succ fuel ih =>
    intro visited que tr path hg h
    match que with
    | [] =>
      rw [bfs_loopT_nil] at h
      obtain ⟨h1, h2⟩ := Prod.mk.injEq .. ▸ (Option.some.injEq .. ▸ h)
      exact absurd h2 (by simp)
    | (s, anc) :: que =>
      cases hsol : P.is_solved s with
      | true =>
        rw [bfs_loopT_solved P fuel visited s anc que hsol] at h
        obtain ⟨h1, h2⟩ := Prod.mk.injEq .. ▸ (Option.some.injEq .. ▸ h)
        have hpath : path = (s :: anc).reverse := (Option.some.injEq .. ▸ h2).symm
        subst hpath
        obtain ⟨hh, hc, hl⟩ := goodEntry_path P s0 s anc (hg _ (List.mem_cons_self _ _))
        exact ⟨hh, hc, s, hl, hsol⟩
      | false =>
        rw [bfs_loopT_expand P fuel visited s anc que hsol] at h
        rw [Option.map_eq_some'] at h
        obtain ⟨⟨tr', res'⟩, hrec, heq⟩ := h
        have h2 : res' = some path := congrArg Prod.snd heq
        refine ih _ _ _ _ ?_ (h2 ▸ hrec)
        intro e he
        rcases List.mem_append.mp he with hold | hnew
        · exact hg e (List.mem_cons_of_mem _ hold)
        · obtain ⟨p, hp, hpe⟩ := List.mem_map.mp hnew
          exact hpe ▸ goodEntry_child P s0 s anc p (hg _ (List.mem_cons_self _ _))
            (List.mem_of_mem_filter hp)

/-- The chain tree of a root-first path whose last state is solved is
a simple chain: one child per node, childless solved leaf. -/
theorem isSimpleChain_chainOf (P : Puzzle σ) : ∀ (l : List σ) (x t : σ),
    (x :: l).getLast? = some t → P.is_solved t = true →
    isSimpleChain P (chainOf x l) = true := by
  intro l
  induction l with
  | nil =>
    intro x t hlast hsol
    have hx : x = t := by simpa using hlast
    subst hx
    simpa [chainOf, isSimpleChain] using hsol
  | cons y l ih =>
    intro x t hlast hsol
    rw [List.getLast?_cons_cons] at hlast
    simpa [chainOf, isSimpleChain] using ih y t hlast hsol

/-- Claim C1: whenever either engine returns a non-null result, the
returned root-first path starts at the initial state, ends at a solved
state, relates each consecutive pair by one application of extensions,
and its reconstructed tree is a simple chain in which every node has
exactly one child except the solved leaf, which has none. -/
theorem claim_C1_solution_chain (P : Puzzle σ) (fuel : Nat) (s0 : σ) (path : List σ)
    (h : depth_first_solve P fuel s0 = some (some path) ∨
         breadth_first_solve P fuel s0 = some (some path)) :
    path.head? = some s0 ∧
    List.Chain' (fun a b => b ∈ P.extensions a) path ∧
    (∃ t, path.getLast? = some t ∧ P.is_solved t = true) ∧
    ∀ (x : σ) (rest : List σ), path = x :: rest →
      isSimpleChain P (chainOf x rest) = true := by
  have main : path.head? = some s0 ∧
      List.Chain' (fun a b => b ∈ P.extensions a) path ∧
      ∃ t, path.getLast? = some t ∧ P.is_solved t = true := by
    rcases h with hd | hb
    · rw [depth_first_solve, Option.map_eq_some'] at hd
      obtain ⟨⟨tr, res⟩, hT, hsnd⟩ := hd
      have hres : res = some path := hsnd
      rw [depth_first_solveT] at hT
      by_cases hsol : P.is_solved s0
      · rw [if_pos hsol] at hT
        have h1 : some [s0] = res := congrArg Prod.snd (Option.some.inj hT)
        have hpath : path = [s0] := by
          rw [hres] at h1
          exact (Option.some.inj h1).symm
        subst hpath
        exact ⟨rfl, List.chain'_singleton s0, s0, rfl, hsol⟩
      · rw [if_neg hsol, Option.map_eq_some'] at hT
        obtain ⟨⟨tr', res'⟩, hloop, heq⟩ := hT
        have hres' : res' = some path := by
          have := congrArg Prod.snd heq
          simp only at this
          rw [this, hres]
        refine dfs_loopT_sound P s0 fuel _ _ tr' path ?_ (hres' ▸ hloop)
        intro e he
        obtain ⟨p, hp, hpe⟩ := List.mem_map.mp he
        refine hpe ▸ ⟨?_, ?_⟩
        · simp
        · have : ((p, [s0]).1 :: (p, [s0]).2).reverse = [s0, p] := by simp
          rw [this]
          exact List.chain'_pair.mpr hp
    · rw [breadth_first_solve, Option.map_eq_some'] at hb
      obtain ⟨⟨tr, res⟩, hT, hsnd⟩ := hb
      have hres : res = some path := hsnd
      rw [breadth_first_search] at hT
      refine bfs_loopT_sound P s0 fuel _ _ tr path ?_ (hres ▸ hT)
      intro e he
      have he' : e = (s0, ([] : List σ)) := by simpa using he
      subst he'
      exact ⟨rfl, List.chain'_singleton s0⟩
  obtain ⟨hh, hc, t, hl, hsolved⟩ := main
  refine ⟨hh, hc, ⟨t, hl, hsolved⟩, ?_⟩
  intro x rest hpr
  rw [hpr] at hl
  exact isSimpleChain_chainOf P rest x t hl hsolved

/-- Witness for claim C1 on the depth-first run over the two-state
line puzzle. -/
theorem claim_C1_witness :
    ([false, true] : List Bool).head? = some false ∧
    List.Chain' (fun a b => b ∈ linePuzzle.extensions a) [false, true] ∧
    (∃ t, ([false, true] : List Bool).getLast? = some t ∧
      linePuzzle.is_solved t = true) ∧
    ∀ (x : Bool) (rest : List Bool), ([false, true] : List Bool) = x :: rest →
      isSimpleChain linePuzzle (chainOf x rest) = true :=
  claim_C1_solution_chain linePuzzle 2 false [false, true] (Or.inl (by decide))

/-- Every member of a list of naturals is bounded by its foldr max. -/
theorem le_foldr_max : ∀ (l : List Nat) (x : Nat), x ∈ l → x ≤ l.foldr max 0 := by
  intro l
  induction l with
  | nil => intro x hx; exact absurd hx (by simp)
  | cons a l ih =>
    intro x hx
    rcases List.mem_cons.mp hx with h | h
    · exact h ▸ Nat.le_max_left a (l.foldr max 0)
    · exact Nat.le_trans (ih x h) (Nat.le_max_right a (l.foldr max 0))

/-- Growing the visited set cannot increase the count of unvisited
canonical forms. -/
theorem filter_notmem_mono (a : String) (vis : List String) (l : List String) :
    (l.filter (fun x => decide (x ∉ a :: vis))).length ≤
      (l.filter (fun x => decide (x ∉ vis))).length := by
  refine List.Sublist.length_le (List.monotone_filter_right l ?_)
  intro x hx
  simp only [decide_eq_true_eq] at hx ⊢
  exact fun hc => hx (List.mem_cons_of_mem _ hc)

/-- Marking an unvisited canonical form that occurs in the list
strictly decreases the count of unvisited forms. -/
theorem filter_notmem_strict (a : String) (vis : List String) (hnv : a ∉ vis)
    (l : List String) (hal : a ∈ l) :
    (l.filter (fun x => decide (x ∉ a :: vis))).length + 1 ≤
      (l.filter (fun x => decide (x ∉ vis))).length := by
  obtain ⟨s, t, rfl⟩ := List.append_of_mem hal
  rw [List.filter_append, List.filter_append, List.filter_cons, List.filter_cons]
  rw [if_pos (decide_eq_true hnv), if_neg (by simp)]
  simp only [List.length_append, List.length_cons]
  have m1 := filter_notmem_mono a vis s
  have m2 := filter_notmem_mono a vis t
  omega

/-- Mapping a function over an optional value preserves whether it is
present. -/
theorem isSome_omap (f : α → β) (x : Option α) : (x.map f).isSome = x.isSome := by
  cases x <;> rfl

/-- The depth-first loop halts (with a path or the no-solution signal)
once the fuel exceeds the measure combining the stack size and the
count of closed-world canonical forms not yet visited. -/
theorem dfs_loopT_total (P : Puzzle σ) (R : List σ)
    (hclosed : ∀ a ∈ R, ∀ b ∈ P.extensions a, b ∈ R) :
    ∀ (fuel : Nat) (visited : List String) (stack : List (SearchEntry σ)),
    (∀ e ∈ stack, e.1 ∈ R) →
    stack.length +
        ((R.map (fun a => (P.extensions a).length)).foldr max 0 + 1) *
          (((R.map P.str).dedup).filter (fun x => decide (x ∉ visited))).length < fuel →
    (dfs_loopT P fuel visited stack).isSome := by
  intro fuel
  induction fuel with
  | zero =>
    intro visited stack hsR hm
    exact absurd hm (by omega)
  | succ fuel ih =>
    intro visited stack hsR hm
    match stack with
    | [] => rw [dfs_loopT_nil]; rfl
    | (s, anc) :: stack =>
      by_cases hv : P.str s ∈ visited
      · rw [dfs_loopT_visited P fuel visited s anc stack hv]
        refine ih visited stack (fun e he => hsR e (List.mem_cons_of_mem _ he)) ?_
        revert hm
        generalize (((R.map P.str).dedup).filter
          (fun x => decide (x ∉ visited))).length = U
        generalize ((R.map (fun a => (P.extensions a).length)).foldr max 0 + 1) * U = M
        simp only [List.length_cons]
        omega
      · cases hsol : P.is_solved s with
        | true =>
          rw [dfs_loopT_solved P fuel visited s anc stack hv hsol]
          rfl
        | false =>
          rw [dfs_loopT_expand P fuel visited s anc stack hv hsol, isSome_omap]
          have hsRmem : s ∈ R := hsR (s, anc) (List.mem_cons_self _ _)
          refine ih (P.str s :: visited) _ ?_ ?_
          · intro e he
            rcases List.mem_append.mp he with hnew | hold
            · rw [List.mem_reverse] at hnew
              obtain ⟨p, hp, hpe⟩ := List.mem_map.mp hnew
              exact hpe ▸ hclosed s hsRmem p hp
            · exact hsR e (List.mem_cons_of_mem _ hold)
          · have hstr : P.str s ∈ (R.map P.str).dedup :=
              List.mem_dedup.mpr (List.mem_map_of_mem P.str hsRmem)
            have hU := filter_notmem_strict (P.str s) visited hv _ hstr
            have hext : (P.extensions s).length ≤
                (R.map (fun a => (P.extensions a).length)).foldr max 0 :=
              le_foldr_max _ _ (List.mem_map_of_mem _ hsRmem)
            have hlen : (((P.extensions s).map (fun p => (p, s :: anc))).reverse ++
                stack).length = (P.extensions s).length + stack.length := by
              simp
            rw [hlen]
            revert hm hU
            generalize hU2 : (((R.map P.str).dedup).filter
              (fun x => decide (x ∉ P.str s :: visited))).length = U2
            generalize hU1 : (((R.map P.str).dedup).filter
              (fun x => decide (x ∉ visited))).length = U1
            generalize hKK : (R.map (fun a => (P.extensions a).length)).foldr max 0 = K
            intro hm hU
            have hmul : (K + 1) * U2 + (K + 1) ≤ (K + 1) * U1 := by
              have h2 : U2 + 1 ≤ U1 := hU
              calc (K + 1) * U2 + (K + 1) = (K + 1) * (U2 + 1) := by ring
                _ ≤ (K + 1) * U1 := Nat.mul_le_mul_left _ h2
            revert hm hmul hext
            generalize (K + 1) * U2 = A
            generalize (K + 1) * U1 = B
            simp only [List.length_cons]
            intro hm hmul hext
            omega

/-- Claim C8: whenever the set of states reachable from the initial
state by repeated application of extensions is finite, depth_first_solve
terminates: some fuel makes it return a result (a path or the
no-solution signal). -/
theorem claim_C8_dfs_terminates (P : Puzzle σ) (s0 : σ)
    (hfin : Set.Finite {t | Relation.ReflTransGen (fun a b => b ∈ P.extensions a) s0 t}) :
    ∃ fuel, (depth_first_solve P fuel s0).isSome = true := by
  classical
  set R := hfin.toFinset.toList with hR
  have hmem : ∀ t, Relation.ReflTransGen (fun a b => b ∈ P.extensions a) s0 t → t ∈ R := by
    intro t ht
    rw [hR, Finset.mem_toList, Set.Finite.mem_toFinset]
    exact ht
  have hclosed : ∀ a ∈ R, ∀ b ∈ P.extensions a, b ∈ R := by
    intro a ha b hb
    have ha' : Relation.ReflTransGen (fun a b => b ∈ P.extensions a) s0 a := by
      rw [hR, Finset.mem_toList, Set.Finite.mem_toFinset] at ha
      exact ha
    exact hmem b (ha'.tail hb)
  by_cases hsol : P.is_solved s0
  · refine ⟨0, ?_⟩
    simp [depth_first_solve, depth_first_solveT, hsol]
  · set seeds := (P.extensions s0).map (fun p => (p, ([s0] : List σ))) with hseeds
    set B := seeds.length +
      ((R.map (fun a => (P.extensions a).length)).foldr max 0 + 1) *
        (((R.map P.str).dedup).filter
          (fun x => decide (x ∉ ([P.str s0] : List String)))).length with hB
    refine ⟨B + 1, ?_⟩
    rw [depth_first_solve, isSome_omap, depth_first_solveT, if_neg hsol, isSome_omap]
    refine dfs_loopT_total P R hclosed (B + 1) [P.str s0] seeds ?_ ?_
    · intro e he
      obtain ⟨p, hp, hpe⟩ := List.mem_map.mp he
      have hs0 : s0 ∈ R := hmem s0 Relation.ReflTransGen.refl
      exact hpe ▸ hclosed s0 hs0 p hp
    · exact Nat.lt_succ_self B

/-- Witness for claim C8 on the stuck puzzle, whose reachable set is a
subset of the finite type of booleans. -/
theorem claim_C8_witness :
    ∃ fuel, (depth_first_solve stuckPuzzle fuel false).isSome = true :=
  claim_C8_dfs_terminates stuckPuzzle false
    (Set.Finite.subset Set.finite_univ (fun _ _ => trivial))

/-- The entry at the last valid index of a list is the value of its
getLast?. -/
theorem get_last_of_getLast? (l : List α) (t : α) (hl : l.getLast? = some t)
    (k : Fin l.length) (hk : k.1 = l.length - 1) : l.get k = t := by
  have h2 : l[k.1]? = some t := by
    rw [hk, ← List.getLast?_eq_getElem?]
    exact hl
  have h3 : l[k.1]? = some (l.get k) := by
    rw [List.getElem?_eq_getElem k.2]
    rfl
  rw [h3] at h2
  exact Option.some.inj h2

/-- Every nonempty chain contains a duplicate-free chain with the same
head and last element, no more states, and only states of the original
chain. -/
theorem chain_shortcut (R : α → α → Prop) :
    ∀ (n : Nat) (l : List α), l.length ≤ n → List.Chain' R l →
    ∃ m : List α, List.Chain' R m ∧ m.Nodup ∧ m.head? = l.head? ∧
      m.getLast? = l.getLast? ∧ m.length ≤ l.length ∧ m ⊆ l := by
  intro n
  induction n with
  | zero =>
    intro l hl _
    have hnil : l = [] := List.length_eq_zero.mp (Nat.le_zero.mp hl)
    subst hnil
    exact ⟨[], by simp, by simp, rfl, rfl, le_rfl, by simp⟩
  | succ n ih =>
    intro l hl hc
    match l with
    | [] => exact ⟨[], by simp, by simp, rfl, rfl, le_rfl, by simp⟩
    | a :: t =>
      by_cases ha : a ∈ t
      · obtain ⟨s1, s2, hsplit⟩ := List.append_of_mem ha
        have hsuffix : (a :: s2) <:+ (a :: t) := by
          rw [hsplit]
          exact ⟨a :: s1, by simp⟩
        have hc2 : List.Chain' R (a :: s2) := hc.suffix hsuffix
        have hlen2 : (a :: s2).length ≤ n := by
          subst hsplit
          simp only [List.length_cons, List.length_append] at hl ⊢
          omega
        obtain ⟨m, hmc, hmn, hmh, hml, hmlen, hmsub⟩ := ih (a :: s2) hlen2 hc2
        refine ⟨m, hmc, hmn, by rw [hmh]; rfl, ?_, ?_, ?_⟩
        · rw [hml]
          subst hsplit
          have : a :: (s1 ++ a :: s2) = (a :: s1) ++ (a :: s2) := by simp
          rw [this, List.getLast?_append_of_ne_nil _ (by simp)]
        · refine le_trans hmlen ?_
          subst hsplit
          simp only [List.length_cons, List.length_append]
          omega
        · exact fun x hx => hsuffix.subset (hmsub hx)
      · match t with
        | [] => exact ⟨[a], by simp, by simp, rfl, rfl, le_rfl, by simp⟩
        | b :: t' =>
          have hc' : List.Chain' R (b :: t') := hc.tail
          have hR : R a b := (List.chain'_cons.mp hc).1
          obtain ⟨m, hmc, hmn, hmh, hml, hmlen, hmsub⟩ := ih (b :: t')
            (by simp only [List.length_cons] at hl ⊢; omega) hc'
          obtain ⟨ys, hys⟩ := List.head?_eq_some_iff.mp (by rw [hmh]; rfl)
          refine ⟨a :: m, ?_, ?_, rfl, ?_, ?_, ?_⟩
          · rw [hys]
            exact List.chain'_cons.mpr ⟨hR, hys ▸ hmc⟩
          · refine List.nodup_cons.mpr ⟨fun hc3 => ha (hmsub hc3), hmn⟩
          · rw [hys, List.getLast?_cons_cons, ← hys, hml]
            exact (List.getLast?_cons_cons).symm
          · simp only [List.length_cons] at hmlen ⊢
            omega
          · intro x hx
            rcases List.mem_cons.mp hx with hxa | hxm
            · exact hxa ▸ List.mem_cons_self a (b :: t')
            · exact List.mem_cons_of_mem a (hmsub hxm)

/-- Depth of a search entry in the tree: the number of its ancestors. -/
def entryDepth (e : SearchEntry σ) : Nat := e.2.length

/-- A list all of whose elements equal a constant is pairwise
nondecreasing. -/
theorem pairwise_le_of_const (l : List Nat) (c : Nat) (h : ∀ x ∈ l, x = c) :
    List.Pairwise (fun a b => a ≤ b) l := by
  induction l with
  | nil => simp
  | cons a l ih =>
    refine List.pairwise_cons.mpr
      ⟨?_, ih (fun x hx => h x (List.mem_cons_of_mem _ hx))⟩
    intro b hb
    rw [h a (List.mem_cons_self _ _), h b (List.mem_cons_of_mem _ hb)]

/-- Shortest-path invariant of the breadth-first loop.  If the queue
is sorted by nondecreasing entry depth, spans at most two consecutive
depth levels, and some vertex of a given duplicate-free solution path
sits in the queue at depth at most its index while the rest of the
path is unvisited, then any path the loop returns is no longer than
the given solution path. -/
theorem bfs_loopT_min (P : Puzzle σ) (hinj : ∀ a b : σ, P.str a = P.str b → a = b)
    (pl : List σ) (hplc : List.Chain' (fun a b => b ∈ P.extensions a) pl)
    (hpln : pl.Nodup)
    (hlast : ∀ t, pl.getLast? = some t → P.is_solved t = true) :
    ∀ (fuel : Nat) (visited : List String) (que : List (SearchEntry σ))
      (tr res : List σ),
    bfs_loopT P fuel visited que = some (tr, some res) →
    List.Pairwise (fun a b => a ≤ b) (que.map entryDepth) →
    (∀ e ∈ que, ∀ hd ∈ que.head?, entryDepth e ≤ entryDepth hd + 1) →
    (∃ i : Fin pl.length, ∃ e ∈ que, e.1 = pl.get i ∧ entryDepth e ≤ i.1 ∧
      ∀ j : Fin pl.length, i.1 < j.1 → P.str (pl.get j) ∉ visited) →
    res.length ≤ pl.length := by
  intro fuel
  induction fuel with
  | zero =>
    intro visited que tr res h _ _ _
    rw [bfs_loopT_zero] at h
    exact absurd h (by simp)
  | succ fuel ih =>
    intro visited que tr res h hP2 hP3 hcov
    match que with
    | [] =>
      rw [bfs_loopT_nil] at h
      have h2 := congrArg Prod.snd (Option.some.inj h)
      exact absurd h2 (by simp)
    | (s, anc) :: rest =>
      obtain ⟨i, e, he, he1, he2, hunvis⟩ := hcov
      have hP2c : List.Pairwise (fun a b => a ≤ b)
          (entryDepth (s, anc) :: rest.map entryDepth) := by simpa using hP2
      have hheadle : ∀ x ∈ (s, anc) :: rest, entryDepth (s, anc) ≤ entryDepth x := by
        intro x hx
        rcases List.mem_cons.mp hx with hx1 | hx2
        · rw [hx1]
        · exact (List.pairwise_cons.mp hP2c).1 _ (List.mem_map_of_mem entryDepth hx2)
      have hdle : entryDepth (s, anc) ≤ i.1 := le_trans (hheadle e he) he2
      cases hsol : P.is_solved s with
      | true =>
        rw [bfs_loopT_solved P fuel visited s anc rest hsol] at h
        have h2 := congrArg Prod.snd (Option.some.inj h)
        have hres : res = (s :: anc).reverse := (Option.some.inj h2).symm
        have hlen : res.length = anc.length + 1 := by rw [hres]; simp
        have hdle2 : anc.length ≤ i.1 := hdle
        have hi := i.2
        omega
      | false =>
        rw [bfs_loopT_expand P fuel visited s anc rest hsol] at h
        rw [Option.map_eq_some'] at h
        obtain ⟨⟨tr', res'⟩, hrec, heq⟩ := h
        have hres' : res' = some res := by
          have := congrArg Prod.snd heq
          simpa using this
        set newE := ((P.extensions s).filter
            (fun x => decide (P.str x ∉ P.str s :: visited))).map
          (fun x => (x, s :: anc)) with hnewE
        have hnewdepth : ∀ x ∈ newE, entryDepth x = anc.length + 1 := by
          intro x hx
          obtain ⟨c, hc, hcx⟩ := List.mem_map.mp hx
          rw [← hcx]
          simp [entryDepth]
        have hP2' : List.Pairwise (fun a b => a ≤ b)
            ((rest ++ newE).map entryDepth) := by
          rw [List.map_append, List.pairwise_append]
          refine ⟨(List.pairwise_cons.mp hP2c).2, ?_, ?_⟩
          · refine pairwise_le_of_const _ (anc.length + 1) ?_
            intro x hx
            obtain ⟨y, hy, hyx⟩ := List.mem_map.mp hx
            rw [← hyx]
            exact hnewdepth y hy
          · intro da hda db hdb
            obtain ⟨ea, hea, heaa⟩ := List.mem_map.mp hda
            obtain ⟨eb, heb, hebb⟩ := List.mem_map.mp hdb
            rw [← heaa, ← hebb, hnewdepth eb heb]
            exact hP3 ea (List.mem_cons_of_mem _ hea) (s, anc) (by simp)
        have hP3' : ∀ x ∈ rest ++ newE, ∀ hd ∈ (rest ++ newE).head?,
            entryDepth x ≤ entryDepth hd + 1 := by
          intro x hx hd hhd
          have hhdmem : hd ∈ rest ++ newE := List.mem_of_mem_head? hhd
          have hda : entryDepth ((s, anc) : SearchEntry σ) = anc.length := rfl
          have hlb : anc.length ≤ entryDepth hd := by
            rcases List.mem_append.mp hhdmem with h1 | h2
            · have := hheadle hd (List.mem_cons_of_mem _ h1)
              omega
            · rw [hnewdepth hd h2]
              omega
          rcases List.mem_append.mp hx with h1 | h2
          · have := hP3 x (List.mem_cons_of_mem _ h1) (s, anc) (by simp)
            omega
          · rw [hnewdepth x h2]
            omega
        have hadv : ∀ k : Fin pl.length, pl.get k = s → anc.length ≤ k.1 →
            (∀ j : Fin pl.length, k.1 < j.1 → P.str (pl.get j) ∉ visited) →
            ∃ i' : Fin pl.length, ∃ e' ∈ rest ++ newE, e'.1 = pl.get i' ∧
              entryDepth e' ≤ i'.1 ∧
              ∀ j : Fin pl.length, i'.1 < j.1 →
                P.str (pl.get j) ∉ P.str s :: visited := by
          intro k hk hdk hkunvis
          have hklt : k.1 + 1 < pl.length := by
            rcases Nat.lt_or_ge (k.1 + 1) pl.length with h1 | h2
            · exact h1
            · exfalso
              have hk2 := k.2
              have hne : pl ≠ [] := by
                intro hnil
                have hlen0 : pl.length = 0 := by rw [hnil]; rfl
                omega
              have hgl := List.getLast?_eq_getLast pl hne
              have hget := get_last_of_getLast? pl (pl.getLast hne) hgl k (by omega)
              have hsolved := hlast (pl.getLast hne) hgl
              rw [← hget, hk] at hsolved
              rw [hsolved] at hsol
              exact absurd hsol (by simp)
          have hkl : k.1 < pl.length - 1 := by omega
          have hchild0 := List.chain'_iff_get.mp hplc k.1 hkl
          have hke : (⟨k.1, by omega⟩ : Fin pl.length) = k := Fin.ext rfl
          have hchild : pl.get ⟨k.1 + 1, hklt⟩ ∈ P.extensions s := by
            rw [← hk]
            have : pl.get ⟨k.1, by omega⟩ = pl.get k := by rw [hke]
            exact this ▸ hchild0
          have hstrne : P.str (pl.get ⟨k.1 + 1, hklt⟩) ≠ P.str s := by
            intro hceq
            have hgeq : pl.get ⟨k.1 + 1, hklt⟩ = pl.get k := by
              rw [hk]
              exact hinj _ _ hceq
            have := congrArg Fin.val (hpln.get_inj_iff.mp hgeq)
            simp at this
          have hstrunvis : P.str (pl.get ⟨k.1 + 1, hklt⟩) ∉ visited :=
            hkunvis ⟨k.1 + 1, hklt⟩ (by simp)
          have hfilter : pl.get ⟨k.1 + 1, hklt⟩ ∈ (P.extensions s).filter
              (fun x => decide (P.str x ∉ P.str s :: visited)) := by
            rw [List.mem_filter]
            refine ⟨hchild, decide_eq_true ?_⟩
            intro hmem
            rcases List.mem_cons.mp hmem with heq | hvis
            · exact hstrne heq
            · exact hstrunvis hvis
          refine ⟨⟨k.1 + 1, hklt⟩, (pl.get ⟨k.1 + 1, hklt⟩, s :: anc),
            List.mem_append_right _ (List.mem_map_of_mem _ hfilter), rfl, ?_, ?_⟩
          · show (s :: anc).length ≤ k.1 + 1
            simp only [List.length_cons]
            omega
          · intro j hj hmem
            have hj2 : k.1 + 1 < j.1 := hj
            rcases List.mem_cons.mp hmem with heq | hvis
            · have hgeq : pl.get j = pl.get k := by
                rw [hk]
                exact hinj _ _ heq
              have := congrArg Fin.val (hpln.get_inj_iff.mp hgeq)
              omega
            · exact hkunvis j (by omega) hvis
        refine ih (P.str s :: visited) (rest ++ newE) tr' res (hres' ▸ hrec)
          hP2' hP3' ?_
        rcases List.mem_cons.mp he with hehead | herest
        · have hk : pl.get i = s := by rw [← he1, hehead]
          have hdk : anc.length ≤ i.1 := by
            have hdd : entryDepth e = anc.length := by rw [hehead]; rfl
            omega
          exact hadv i hk hdk hunvis
        · by_cases hex : ∃ j : Fin pl.length, i.1 < j.1 ∧ P.str (pl.get j) = P.str s
          · obtain ⟨j, hij, hjs⟩ := hex
            have hk : pl.get j = s := hinj _ _ hjs
            have hdk : anc.length ≤ j.1 := by
              have h1 := hheadle e he
              have h2 : entryDepth ((s, anc) : SearchEntry σ) = anc.length := rfl
              omega
            refine hadv j hk hdk ?_
            intro j' hj'
            exact hunvis j' (by omega)
          · push_neg at hex
            refine ⟨i, e, List.mem_append_left _ herest, he1, he2, ?_⟩
            intro j hj hmem
            rcases List.mem_cons.mp hmem with heq | hvis
            · exact hex j hj heq
            · exact hunvis j hj hvis

/-- Claim C2: on a puzzle whose canonical string form is injective (as
the capability contract requires), every path returned by
breadth_first_solve has at most as many states - hence at most as many
edges - as any solution path reachable from the initial state by
repeated application of extensions. -/
theorem claim_C2_bfs_shortest (P : Puzzle σ)
    (hinj : ∀ a b : σ, P.str a = P.str b → a = b)
    (fuel : Nat) (s0 : σ) (res pl : List σ)
    (hres : breadth_first_solve P fuel s0 = some (some res))
    (hhead : pl.head? = some s0)
    (hchain : List.Chain' (fun a b => b ∈ P.extensions a) pl)
    (hsol : ∃ t, pl.getLast? = some t ∧ P.is_solved t = true) :
    res.length ≤ pl.length := by
  obtain ⟨m, hmc, hmn, hmh, hml, hmlen, _⟩ :=
    chain_shortcut (fun a b => b ∈ P.extensions a) pl.length pl le_rfl hchain
  rw [breadth_first_solve, Option.map_eq_some'] at hres
  obtain ⟨⟨tr, r⟩, hT, hsnd⟩ := hres
  have hr : r = some res := hsnd
  rw [breadth_first_search] at hT
  have hmhead : m.head? = some s0 := by rw [hmh]; exact hhead
  obtain ⟨m', hm'⟩ := List.head?_eq_some_iff.mp hmhead
  subst hm'
  have hmlast : ∀ t, (s0 :: m').getLast? = some t → P.is_solved t = true := by
    intro t ht
    obtain ⟨t0, hl0, hs0⟩ := hsol
    rw [hml] at ht
    have : t = t0 := Option.some.inj (ht.symm.trans hl0)
    rw [this]
    exact hs0
  refine le_trans (bfs_loopT_min P hinj (s0 :: m') hmc hmn hmlast fuel []
    [(s0, [])] tr res (hr ▸ hT) ?_ ?_ ?_) hmlen
  · simp
  · intro e hee hd hhd
    have he' : e = (s0, []) := by simpa using hee
    have hd' : hd = (s0, []) := by
      have := hhd
      simp only [List.head?_cons, Option.mem_def, Option.some.injEq] at this
      exact this.symm
    rw [he', hd']
    exact Nat.le_succ _
  · refine ⟨⟨0, by simp⟩, (s0, []), by simp, rfl, le_rfl, ?_⟩
    intro j hj hmem
    exact absurd hmem (by simp)

/-- Witness for claim C2 on the two-state line puzzle: the path
breadth_first_solve returns is no longer than the explicit solution
path false, true. -/
theorem claim_C2_witness :
    ([false, true] : List Bool).length ≤ ([false, true] : List Bool).length :=
  claim_C2_bfs_shortest linePuzzle (by decide) 2 false [false, true] [false, true]
    (by decide) (by decide) (List.chain'_pair.mpr (by decide))
    ⟨true, by decide, by decide⟩
